import Mathlib

/-!
# Verification of the katelect polling-average pipeline

Shallow embedding of the polling-chart computation pipeline of the
katelect repository (`katelect-front/src/components/PollingChart.tsx`
and its sibling variant): EWMA smoothing, vote-share normalization,
zoom-window filtering, vertical-scale construction, nearest-point
lookup, and the fetch-effect state updates.

Dates are modelled at day resolution as integers (days since the Unix
epoch, matching JavaScript `Date` comparisons at local midnight), and
vote shares as rationals (the JavaScript numbers, read exactly).
-/

namespace Katelect

/-- The fixed closed set of tracked parties. -/
inductive PartyKey where
  | liberal | conservative | ndp | bloc | green | ppc | other
  deriving DecidableEq, Repr

/-- One raw poll row (`Poll` in `PollingData.ts`): a date (days since
epoch), pollster, sample size, and one vote share per party. -/
structure Poll where
  date : ℤ
  pollster : String
  sampleSize : ℕ
  liberal : ℚ
  conservative : ℚ
  ndp : ℚ
  bloc : ℚ
  green : ℚ
  ppc : ℚ
  other : ℚ
  deriving DecidableEq, Repr

/-- One smoothed, date-keyed record (`AveragedDataPoint`). -/
structure AveragedDataPoint where
  date : ℤ
  liberal : ℚ
  conservative : ℚ
  ndp : ℚ
  bloc : ℚ
  green : ℚ
  ppc : ℚ
  other : ℚ
  deriving DecidableEq, Repr

/-- Field access `poll[party]`. -/
def Poll.val (p : Poll) : PartyKey → ℚ
  | .liberal => p.liberal
  | .conservative => p.conservative
  | .ndp => p.ndp
  | .bloc => p.bloc
  | .green => p.green
  | .ppc => p.ppc
  | .other => p.other

/-- Field access `dataPoint[party]`. -/
def AveragedDataPoint.val (p : AveragedDataPoint) : PartyKey → ℚ
  | .liberal => p.liberal
  | .conservative => p.conservative
  | .ndp => p.ndp
  | .bloc => p.bloc
  | .green => p.green
  | .ppc => p.ppc
  | .other => p.other

/-- The ordering used by `data.sort((a, b) => dateA - dateB)`. -/
def dateLe (a b : Poll) : Prop := a.date ≤ b.date

instance : DecidableRel dateLe := fun a b => inferInstanceAs (Decidable (a.date ≤ b.date))

instance : IsTotal Poll dateLe := ⟨fun a b => le_total a.date b.date⟩

instance : IsTrans Poll dateLe := ⟨fun _ _ _ h h' => le_trans h h'⟩

/-- Models `[...data].sort((a, b) => new Date(a.date) - new Date(b.date))`:
a stable sort ascending by date (JavaScript `Array.prototype.sort` is
stable; insertion sort is the stable sort, so it computes the same
output). -/
def sortPolls (l : List Poll) : List Poll := List.insertionSort dateLe l

/-- The tail of the EWMA recurrence: given the previous smoothed value,
produce the smoothed values of the remaining observations, via
`newEWMA = previousEWMA + smoothingFactor * (currentValue - previousEWMA)`. -/
def ewmaFrom (α : ℚ) : ℚ → List ℚ → List ℚ
  | _, [] => []
  | prev, x :: xs =>
    let nxt := prev + α * (x - prev)
    nxt :: ewmaFrom α nxt xs

/-- The function `calculateEWMA(data, party, smoothingFactor)` from `PollingChart.tsx`:
returns `[]` on empty input, otherwise sorts the data ascending by date,
seeds the result with the first (sorted) value of the party, and applies
the EWMA recurrence to every subsequent data point. -/
def calculateEWMA (data : List Poll) (party : PartyKey) (α : ℚ) : List ℚ :=
  match (sortPolls data).map (fun p => p.val party) with
  | [] => []
  | v :: vs => v :: ewmaFrom α v vs

/-- The sum `parties.reduce((sum, party) => sum + dataPoint[party], 0)`
over the seven parties. -/
def sumSeven (p : AveragedDataPoint) : ℚ :=
  0 + p.liberal + p.conservative + p.ndp + p.bloc + p.green + p.ppc + p.other

/-- The function `normalizeVoteShare(dataPoint)` from `PollingChart.tsx`: if the total
of the seven party values is zero the point is returned unchanged,
otherwise every party value is scaled by `100 / total`
(written `(dataPoint[party] / total) * 100` in the source). -/
def normalizeVoteShare (p : AveragedDataPoint) : AveragedDataPoint :=
  let total := sumSeven p
  if total = 0 then p
  else
    { p with
      liberal := p.liberal / total * 100
      conservative := p.conservative / total * 100
      ndp := p.ndp / total * 100
      bloc := p.bloc / total * 100
      green := p.green / total * 100
      ppc := p.ppc / total * 100
      other := p.other / total * 100 }

/-!
## Calendar model and zoom-window filter

JavaScript `new Date(year, month, day)` (0-based `month`, possibly out
of `[0, 11]`) normalizes via `MakeDay`: the month index is reduced
modulo 12 into the year, and the day offset is added to the first of
that month.  `daysFromCivil` is the standard civil-from-days conversion
(proleptic Gregorian calendar, day 0 = 1970-01-01), with a 1-based
month.
-/

/-- Day number (days since 1970-01-01) of the civil date `y-m-d`
(1-based month `m ∈ [1,12]`), proleptic Gregorian. -/
def daysFromCivil (y m d : ℤ) : ℤ :=
  let y' := if m ≤ 2 then y - 1 else y
  let era := y'.ediv 400
  let yoe := y' - era * 400
  let mp := (m + 9).emod 12
  let doy := (153 * mp + 2).ediv 5 + d - 1
  let doe := yoe * 365 + yoe.ediv 4 - yoe.ediv 100 + doy
  era * 146097 + doe - 719468

/-- Day number of `new Date(y, m, d)` with 0-based month `m` (any
integer) and day-of-month `d`: the month overflow is folded into the
year and the day offset is added to the first of the resulting month,
exactly as ECMAScript `MakeDay` does. -/
def newDateDays (y m d : ℤ) : ℤ :=
  daysFromCivil (y + m.ediv 12) (m.emod 12 + 1) 1 + (d - 1)

/-- The enumerated zoom levels (the numeric codes 0–4 in the source:
0 = all data, 1 = 1 year, 2 = 6 months, 3 = 3 months, 4 = 1 month). -/
inductive ZoomLevel where
  | all | oneYear | sixMonths | threeMonths | oneMonth
  deriving DecidableEq, Repr

/-- The cutoff `startDate` computed by the zoom-filter effect from the current
date (`now`, given as its 0-based-month components `nowY`/`nowM`/`nowD`):
`new Date(0)` for all data, otherwise `new Date(year - 1, month, day)` /
`new Date(year, month - k, day)`. -/
def zoomStartDate (lvl : ZoomLevel) (nowY nowM nowD : ℤ) : ℤ :=
  match lvl with
  | .all => 0
  | .oneYear => newDateDays (nowY - 1) nowM nowD
  | .sixMonths => newDateDays nowY (nowM - 6) nowD
  | .threeMonths => newDateDays nowY (nowM - 3) nowD
  | .oneMonth => newDateDays nowY (nowM - 1) nowD

/-- The zoom-filter effect body:
`averagedData.filter((d) => new Date(d.date) >= startDate)`. -/
def zoomFilter (lvl : ZoomLevel) (nowY nowM nowD : ℤ)
    (data : List AveragedDataPoint) : List AveragedDataPoint :=
  data.filter (fun d => zoomStartDate lvl nowY nowM nowD ≤ d.date)

/-!
## Scale/Axis Builder (vertical ceiling, `finalYMax` of the fetching
PollingChart variant)
-/

/-- The expression `Math.max(poll.liberal ?? 0, ..., poll.ppc ?? 0)`: the maximum of a
raw poll's six charted party values (`other` is not considered). -/
def Poll.maxSix (p : Poll) : ℚ :=
  max p.liberal (max p.conservative (max p.ndp (max p.bloc (max p.green p.ppc))))

/-- The expression `Math.max(d.liberal ?? 0, ..., d.ppc ?? 0)` on an averaged point. -/
def AveragedDataPoint.maxSix (p : AveragedDataPoint) : ℚ :=
  max p.liberal (max p.conservative (max p.ndp (max p.bloc (max p.green p.ppc))))

/-- The window restriction `rawData.filter((d) => xDomain[0] <= date && date <= xDomain[1])`:
the raw polls whose dates intersect the current date window. -/
def relevantRawData (lo hi : ℤ) (rawData : List Poll) : List Poll :=
  rawData.filter (fun d => lo ≤ d.date ∧ d.date ≤ hi)

/-- The fold `Math.max(0, ...relevantRawData.map(maxSix))`. -/
def maxRawVoteShare (relevant : List Poll) : ℚ :=
  relevant.foldl (fun acc p => max acc p.maxSix) 0

/-- The fold `Math.max(0, ...filteredAveragedData.map(maxSix))`. -/
def maxAvgVoteShare (filteredAvg : List AveragedDataPoint) : ℚ :=
  filteredAvg.foldl (fun acc p => max acc p.maxSix) 0

/-- The combined maximum `overallMax = Math.max(maxRawVoteShare, maxAvgVoteShare)`. -/
def overallMax (relevant : List Poll) (filteredAvg : List AveragedDataPoint) : ℚ :=
  max (maxRawVoteShare relevant) (maxAvgVoteShare filteredAvg)

/-- The ceiling `finalYMax = Math.max(30, Math.ceil((overallMax * 1.05) / 5) * 5)`:
the computed vertical ceiling. -/
def finalYMax (relevant : List Poll) (filteredAvg : List AveragedDataPoint) : ℤ :=
  max 30 (⌈overallMax relevant filteredAvg * (21 / 20 : ℚ) / 5⌉ * 5)

/-!
## Nearest-Point Locator (the overlay `mousemove` handler)
-/

/-- The search `d3.bisector(accessor).left(keys, x, lo, hi)`: textbook leftmost
binary search over the accessor values `keys`.  While `lo < hi`, probe
`mid = (lo + hi) / 2`; move `lo` past `mid` when `keys[mid] < x`,
otherwise close `hi` down to `mid`. -/
def bisectLeft (keys : List ℚ) (x : ℚ) (lo hi : ℕ) : ℕ :=
  if h : lo < hi then
    let mid := (lo + hi) / 2
    if keys.getD mid 0 < x then bisectLeft keys x (mid + 1) hi
    else bisectLeft keys x lo mid
  else lo
termination_by hi - lo
decreasing_by
  · have h1 : lo ≤ (lo + hi) / 2 := Nat.le_div_iff_mul_le (by omega) |>.mpr (by omega)
    omega
  · have h2 : (lo + hi) / 2 < hi := Nat.div_lt_iff_lt_mul (by omega) |>.mpr (by omega)
    omega

/-- The body of the overlay `mousemove` handler: with `x` the pointer
position inverted through the time scale (a continuous time value, in
days here), compute `i = bisector.left(filteredData, x, 1)`, read the
bracketing points `d0 = filteredData[i-1]` and `d1 = filteredData[i]`,
return early (`none`) when either is missing, and otherwise select
`d1` when `x - d0.date > d1.date - x`, else `d0`. -/
def mousemoveSelect (data : List AveragedDataPoint) (x : ℚ) :
    Option AveragedDataPoint :=
  let keys := data.map (fun d => (d.date : ℚ))
  let i := bisectLeft keys x 1 keys.length
  match data.get? (i - 1), data.get? i with
  | some d0, some d1 =>
    some (if x - (d0.date : ℚ) > (d1.date : ℚ) - x then d1 else d0)
  | _, _ => none

/-!
## The averaged-series pipeline (the `useEffect` processing `polls`)

The effect sorts the polls by date, builds a `Map` keyed by the date
string with one zero-initialized `AveragedDataPoint` per distinct date
(insertion order = first occurrence in the sorted data), then for each
party walks the sorted data writing `dataPoint[party] = ewmaValues[index]`
(so the last same-date write wins), normalizes every point, and finally
converts the map to an array sorted by date.
-/

/-- The distinct keys of the `dateMap`, in insertion order (first
occurrence first). -/
def uniqueDates : List ℤ → List ℤ
  | [] => []
  | d :: ds => d :: uniqueDates (ds.filter (fun e => e ≠ d))
termination_by l => l.length
decreasing_by
  have := List.length_filter_le (fun e => decide (e ≠ d)) ds
  simp only [List.length_cons]
  omega

/-- The per-party assignment loop
`data.forEach((poll, index) => { dataPoint[party] = ewmaValues[index] })`
restricted to one map entry: starting from the zero initialization,
each pass over a `(date, ewmaValue)` pair overwrites the accumulator
when the pair's date is the entry's key, so the final value is the EWMA
value at the last same-date index. -/
def assignLast (pairs : List (ℤ × ℚ)) (d : ℤ) : ℚ :=
  pairs.foldl (fun acc pr => if pr.1 = d then pr.2 else acc) 0

/-- The map `dateMap` entry for date `d` after the per-party EWMA
assignment loops (before normalization). -/
def preNormPoint (sorted : List Poll) (α : ℚ) (d : ℤ) : AveragedDataPoint :=
  let dates := sorted.map (fun p => p.date)
  let at_ := fun party => assignLast (dates.zip (calculateEWMA sorted party α)) d
  { date := d
    liberal := at_ .liberal
    conservative := at_ .conservative
    ndp := at_ .ndp
    bloc := at_ .bloc
    green := at_ .green
    ppc := at_ .ppc
    other := at_ .other }

/-- The ordering used to sort the averaged array by date. -/
def avgDateLe (a b : AveragedDataPoint) : Prop := a.date ≤ b.date

instance : DecidableRel avgDateLe :=
  fun a b => inferInstanceAs (Decidable (a.date ≤ b.date))

instance : IsTotal AveragedDataPoint avgDateLe := ⟨fun a b => le_total a.date b.date⟩

instance : IsTrans AveragedDataPoint avgDateLe := ⟨fun _ _ _ h h' => le_trans h h'⟩

/-- The whole data-processing effect: sort the polls, build one
pre-normalization point per distinct date, normalize each to 100%, and
sort the resulting array by date (`ewmaData`). -/
def processAveraged (polls : List Poll) (α : ℚ) : List AveragedDataPoint :=
  let sorted := sortPolls polls
  let dates := uniqueDates (sorted.map (fun p => p.date))
  let normed := (dates.map (preNormPoint sorted α)).map normalizeVoteShare
  List.insertionSort avgDateLe normed

/-!
## The fetch effect of the fetching PollingChart variant

`fetchData` runs whenever `region` changes: it sets `loading`, clears
`averagedData`, and fires the request; when a response resolves, its
handler stores the payload into `averagedData` unconditionally — the
effect installs no cleanup and performs no staleness check, so the
handler does not consult which region is current when it writes. -/
structure FetchState where
  region : String
  loading : Bool
  averagedData : List AveragedDataPoint
  deriving DecidableEq, Repr

/-- Observable events of the fetch effect: the effect (re-)running for
a region, and a response for the fetch started for a region resolving. -/
inductive FetchEvent where
  | regionChange (r : String)
  | respond (r : String) (data : List AveragedDataPoint)
  deriving DecidableEq, Repr

/-- One event's effect on the component state, as the source performs
it: `regionChange` sets `loading = true` and clears the data;
`respond` writes its payload and clears `loading`, with no check that
its region is still the current one (the handler body ignores `r`). -/
def stepFetch (s : FetchState) : FetchEvent → FetchState
  | .regionChange r => { region := r, loading := true, averagedData := [] }
  | .respond _ d => { s with averagedData := d, loading := false }

/-- Run a sequence of fetch events. -/
def runFetch (s : FetchState) (es : List FetchEvent) : FetchState :=
  es.foldl stepFetch s

/-! ## Lemmas about the EWMA recurrence -/

theorem length_ewmaFrom (α : ℚ) : ∀ (prev : ℚ) (xs : List ℚ),
    (ewmaFrom α prev xs).length = xs.length
  | _, [] => rfl
  | prev, x :: xs => by
    simp only [ewmaFrom, List.length_cons]
    exact congrArg (· + 1) (length_ewmaFrom α _ xs)

theorem length_calculateEWMA (data : List Poll) (party : PartyKey) (α : ℚ) :
    (calculateEWMA data party α).length = data.length := by
  unfold calculateEWMA
  rcases h : (sortPolls data).map (fun p => p.val party) with _ | ⟨v, vs⟩ <;> rw [h] <;>
    have hl := congrArg List.length h <;>
    simp only [List.length_map, List.length_nil, List.length_cons, sortPolls,
      List.length_insertionSort] at hl <;>
    simp only [List.length_nil, List.length_cons, length_ewmaFrom] <;> omega

theorem ewma_recurrence (α : ℚ) : ∀ (i : ℕ) (prev : ℚ) (xs : List ℚ),
    i + 1 < (prev :: ewmaFrom α prev xs).length →
    (prev :: ewmaFrom α prev xs).getD (i + 1) 0 =
      (prev :: ewmaFrom α prev xs).getD i 0 +
        α * ((prev :: xs).getD (i + 1) 0 - (prev :: ewmaFrom α prev xs).getD i 0)
  | 0, prev, [], h => by simp [ewmaFrom] at h
  | 0, prev, x :: xs, _ => by
    simp [ewmaFrom, List.getD]
  | i + 1, prev, [], h => by simp [ewmaFrom] at h
  | i + 1, prev, x :: xs, h => by
    have ih := ewma_recurrence α i (prev + α * (x - prev)) xs
    simp only [ewmaFrom, List.length_cons] at h ⊢
    simp only [List.getD_cons_succ]
    exact ih (by simpa using h)

/-- Unfolding `calculateEWMA` on a nonempty mapped list. -/
theorem calculateEWMA_eq (data : List Poll) (party : PartyKey) (α : ℚ)
    (v : ℚ) (vs : List ℚ)
    (h : (sortPolls data).map (fun p => p.val party) = v :: vs) :
    calculateEWMA data party α = v :: ewmaFrom α v vs := by
  unfold calculateEWMA
  rw [h]

/-- C1. The Smoothing Engine (`calculateEWMA` with the reference
smoothing factor `0.25`) first sorts the input ascending by date
(a stable sort producing a permutation of the input), then returns one
smoothed value per input poll in that order with
`smoothed[0] = raw[0][party]` and
`smoothed[i] = smoothed[i-1] + 0.25 * (raw[i][party] - smoothed[i-1])`
for `i ≥ 1`; the empty input yields the empty output, and on the two
polls `{date: 2024-01-01, liberal: 40}`, `{date: 2024-02-01, liberal: 30}`
the smoothed liberal series is `[40, 37.5]`. -/
theorem smoothing_engine_ewma_C1 (data : List Poll) (party : PartyKey) :
    List.Sorted dateLe (sortPolls data)
    ∧ (sortPolls data).Perm data
    ∧ (calculateEWMA data party (1/4)).length = data.length
    ∧ (calculateEWMA data party (1/4)).get? 0 =
        ((sortPolls data).map (fun p => p.val party)).get? 0
    ∧ (∀ i : ℕ, i + 1 < (calculateEWMA data party (1/4)).length →
        (calculateEWMA data party (1/4)).getD (i + 1) 0 =
          (calculateEWMA data party (1/4)).getD i 0 +
            (1/4) * (((sortPolls data).map (fun p => p.val party)).getD (i + 1) 0 -
              (calculateEWMA data party (1/4)).getD i 0))
    ∧ calculateEWMA [] party (1/4) = []
    ∧ calculateEWMA
        [⟨daysFromCivil 2024 1 1, "A", 0, 40, 0, 0, 0, 0, 0, 0⟩,
         ⟨daysFromCivil 2024 2 1, "B", 0, 30, 0, 0, 0, 0, 0, 0⟩]
        PartyKey.liberal (1/4) = [40, 75/2] := by
  have hex : calculateEWMA
      [⟨daysFromCivil 2024 1 1, "A", 0, 40, 0, 0, 0, 0, 0, 0⟩,
       ⟨daysFromCivil 2024 2 1, "B", 0, 30, 0, 0, 0, 0, 0, 0⟩]
      PartyKey.liberal (1/4) = [40, 75/2] := by
    have hd : (daysFromCivil 2024 1 1 : ℤ) ≤ daysFromCivil 2024 2 1 := by decide
    norm_num [calculateEWMA, sortPolls, List.insertionSort, List.orderedInsert, dateLe, hd,
      ewmaFrom, Poll.val]
  refine ⟨List.sorted_insertionSort dateLe data, List.perm_insertionSort dateLe data,
    length_calculateEWMA data party (1/4), ?_, ?_, rfl, hex⟩
  · rcases h : (sortPolls data).map (fun p => p.val party) with _ | ⟨v, vs⟩
    · unfold calculateEWMA; rw [h]
    · rw [calculateEWMA_eq data party (1/4) v vs h, h]; rfl
  · intro i hi
    rcases h : (sortPolls data).map (fun p => p.val party) with _ | ⟨v, vs⟩
    · rw [length_calculateEWMA] at hi
      have := congrArg List.length h
      simp only [List.length_map, List.length_nil, sortPolls,
        List.length_insertionSort] at this
      omega
    · rw [calculateEWMA_eq data party (1/4) v vs h] at hi ⊢
      rw [h]
      exact ewma_recurrence (1/4) i v vs hi

/-- Witness for C1: the recurrence hypothesis discharged on the concrete
two-poll example at `i = 0`. -/
theorem smoothing_engine_ewma_C1_witness :
    (calculateEWMA
        [⟨daysFromCivil 2024 1 1, "A", 0, 40, 0, 0, 0, 0, 0, 0⟩,
         ⟨daysFromCivil 2024 2 1, "B", 0, 30, 0, 0, 0, 0, 0, 0⟩]
        PartyKey.liberal (1/4)).getD 1 0 =
      (calculateEWMA
        [⟨daysFromCivil 2024 1 1, "A", 0, 40, 0, 0, 0, 0, 0, 0⟩,
         ⟨daysFromCivil 2024 2 1, "B", 0, 30, 0, 0, 0, 0, 0, 0⟩]
        PartyKey.liberal (1/4)).getD 0 0 +
        (1/4) * (((sortPolls
          [⟨daysFromCivil 2024 1 1, "A", 0, 40, 0, 0, 0, 0, 0, 0⟩,
           ⟨daysFromCivil 2024 2 1, "B", 0, 30, 0, 0, 0, 0, 0, 0⟩]).map
            (fun p => p.val PartyKey.liberal)).getD 1 0 -
          (calculateEWMA
            [⟨daysFromCivil 2024 1 1, "A", 0, 40, 0, 0, 0, 0, 0, 0⟩,
             ⟨daysFromCivil 2024 2 1, "B", 0, 30, 0, 0, 0, 0, 0, 0⟩]
            PartyKey.liberal (1/4)).getD 0 0) :=
  (smoothing_engine_ewma_C1
    [⟨daysFromCivil 2024 1 1, "A", 0, 40, 0, 0, 0, 0, 0, 0⟩,
     ⟨daysFromCivil 2024 2 1, "B", 0, 30, 0, 0, 0, 0, 0, 0⟩]
    PartyKey.liberal).2.2.2.2.1 0 (by norm_num [length_calculateEWMA])

/-- C6. Monotone damping: for every party series, every smoothing
factor `α ∈ (0, 1)` and every `i ≥ 1`, whenever the (sorted) raw value
`raw[i]` differs from `smoothed[i-1]`, the value `smoothed[i]` lies
strictly between them; and `smoothed[0]` equals `raw[0]`. -/
theorem monotone_damping_C6 (data : List Poll) (party : PartyKey) (α : ℚ)
    (h0 : 0 < α) (h1 : α < 1) :
    (calculateEWMA data party α).get? 0 =
      ((sortPolls data).map (fun p => p.val party)).get? 0
    ∧ (∀ i : ℕ, i + 1 < (calculateEWMA data party α).length →
        ((sortPolls data).map (fun p => p.val party)).getD (i + 1) 0 ≠
          (calculateEWMA data party α).getD i 0 →
        ((calculateEWMA data party α).getD i 0 <
            ((sortPolls data).map (fun p => p.val party)).getD (i + 1) 0 →
          (calculateEWMA data party α).getD i 0 < (calculateEWMA data party α).getD (i + 1) 0 ∧
          (calculateEWMA data party α).getD (i + 1) 0 <
            ((sortPolls data).map (fun p => p.val party)).getD (i + 1) 0)
        ∧ (((sortPolls data).map (fun p => p.val party)).getD (i + 1) 0 <
            (calculateEWMA data party α).getD i 0 →
          ((sortPolls data).map (fun p => p.val party)).getD (i + 1) 0 <
            (calculateEWMA data party α).getD (i + 1) 0 ∧
          (calculateEWMA data party α).getD (i + 1) 0 <
            (calculateEWMA data party α).getD i 0)) := by
  constructor
  · rcases h : (sortPolls data).map (fun p => p.val party) with _ | ⟨v, vs⟩
    · unfold calculateEWMA; rw [h]
    · rw [calculateEWMA_eq data party α v vs h, h]; rfl
  · intro i hi _
    rcases h : (sortPolls data).map (fun p => p.val party) with _ | ⟨v, vs⟩
    · rw [length_calculateEWMA] at hi
      have := congrArg List.length h
      simp only [List.length_map, List.length_nil, sortPolls,
        List.length_insertionSort] at this
      omega
    · rw [calculateEWMA_eq data party α v vs h] at hi ⊢
      rw [h]
      have hrec := ewma_recurrence α i v vs hi
      set s := (v :: ewmaFrom α v vs).getD i 0 with hs
      set s' := (v :: ewmaFrom α v vs).getD (i + 1) 0 with hs'
      set r := (v :: vs).getD (i + 1) 0 with hr
      constructor
      · intro hlt
        constructor
        · nlinarith [hrec]
        · nlinarith [hrec]
      · intro hlt
        constructor
        · nlinarith [hrec]
        · nlinarith [hrec]

/-- Witness for C6: with `α = 1/4` on the two-poll example, the second
smoothed value `37.5` lies strictly between the previous smoothed value
`40` and the raw value `30`. -/
theorem monotone_damping_C6_witness :
    (((sortPolls
        [⟨daysFromCivil 2024 1 1, "A", 0, 40, 0, 0, 0, 0, 0, 0⟩,
         ⟨daysFromCivil 2024 2 1, "B", 0, 30, 0, 0, 0, 0, 0, 0⟩]).map
          (fun p => p.val PartyKey.liberal)).getD 1 0 <
      (calculateEWMA
        [⟨daysFromCivil 2024 1 1, "A", 0, 40, 0, 0, 0, 0, 0, 0⟩,
         ⟨daysFromCivil 2024 2 1, "B", 0, 30, 0, 0, 0, 0, 0, 0⟩]
        PartyKey.liberal (1/4)).getD 1 0) ∧
    ((calculateEWMA
        [⟨daysFromCivil 2024 1 1, "A", 0, 40, 0, 0, 0, 0, 0, 0⟩,
         ⟨daysFromCivil 2024 2 1, "B", 0, 30, 0, 0, 0, 0, 0, 0⟩]
        PartyKey.liberal (1/4)).getD 1 0 <
      (calculateEWMA
        [⟨daysFromCivil 2024 1 1, "A", 0, 40, 0, 0, 0, 0, 0, 0⟩,
         ⟨daysFromCivil 2024 2 1, "B", 0, 30, 0, 0, 0, 0, 0, 0⟩]
        PartyKey.liberal (1/4)).getD 0 0) :=
  ((monotone_damping_C6
    [⟨daysFromCivil 2024 1 1, "A", 0, 40, 0, 0, 0, 0, 0, 0⟩,
     ⟨daysFromCivil 2024 2 1, "B", 0, 30, 0, 0, 0, 0, 0, 0⟩]
    PartyKey.liberal (1/4) (by norm_num) (by norm_num)).2 0
      (by norm_num [length_calculateEWMA])
      (by
        have hd : (daysFromCivil 2024 1 1 : ℤ) ≤ daysFromCivil 2024 2 1 := by decide
        norm_num [calculateEWMA, sortPolls, List.insertionSort, List.orderedInsert,
          dateLe, hd, ewmaFrom, Poll.val])).2
    (by
      have hd : (daysFromCivil 2024 1 1 : ℤ) ≤ daysFromCivil 2024 2 1 := by decide
      norm_num [calculateEWMA, sortPolls, List.insertionSort, List.orderedInsert,
        dateLe, hd, ewmaFrom, Poll.val])

/-! ## Lemmas about the Normalizer -/

theorem normalizeVoteShare_date (p : AveragedDataPoint) :
    (normalizeVoteShare p).date = p.date := by
  by_cases h : sumSeven p = 0 <;> simp [normalizeVoteShare, h]

/-- C2. The Normalizer: if the total of the seven party values is
zero the point is returned unchanged; otherwise every party value is
scaled by `100 / total`, so that the normalized values sum exactly to
`100` (over exact rational arithmetic, hence within `1e-9` in floating
point), and every normalized value of a non-negative input stays
non-negative. -/
theorem normalizer_C2 (p : AveragedDataPoint) :
    (sumSeven p = 0 → normalizeVoteShare p = p)
    ∧ (sumSeven p ≠ 0 → sumSeven (normalizeVoteShare p) = 100)
    ∧ ((∀ k : PartyKey, 0 ≤ p.val k) → ∀ k : PartyKey, 0 ≤ (normalizeVoteShare p).val k) := by
  refine ⟨fun h => by unfold normalizeVoteShare; rw [if_pos h], fun h => ?_, fun hnn => ?_⟩
  · unfold normalizeVoteShare
    rw [if_neg h]
    unfold sumSeven at h ⊢
    rw [zero_add] at h
    have h' : p.liberal + p.conservative + p.ndp + p.bloc + p.green + p.ppc + p.other ≠ 0 := h
    simp only [zero_add]
    field_simp
    ring
  · intro k
    rcases eq_or_ne (sumSeven p) 0 with hz | hz
    · unfold normalizeVoteShare
      rw [if_pos hz]
      exact hnn k
    · have hpos : 0 < sumSeven p := by
        have hle : 0 ≤ sumSeven p := by
          have h1 := hnn .liberal
          have h2 := hnn .conservative
          have h3 := hnn .ndp
          have h4 := hnn .bloc
          have h5 := hnn .green
          have h6 := hnn .ppc
          have h7 := hnn .other
          simp only [AveragedDataPoint.val] at h1 h2 h3 h4 h5 h6 h7
          unfold sumSeven
          linarith
        exact lt_of_le_of_ne hle (Ne.symm hz)
      have hk := hnn k
      unfold normalizeVoteShare
      rw [if_neg hz]
      cases k <;> simp only [AveragedDataPoint.val] at hk ⊢ <;> positivity

/-- Witness for C2: a concrete point with total `50` normalizes to total
`100` with a non-negative liberal value, hypotheses discharged. -/
theorem normalizer_C2_witness :
    sumSeven (normalizeVoteShare ⟨0, 20, 15, 10, 0, 3, 1, 1⟩) = 100
    ∧ 0 ≤ (normalizeVoteShare ⟨0, 20, 15, 10, 0, 3, 1, 1⟩).val PartyKey.liberal :=
  ⟨(normalizer_C2 ⟨0, 20, 15, 10, 0, 3, 1, 1⟩).2.1 (by norm_num [sumSeven]),
   (normalizer_C2 ⟨0, 20, 15, 10, 0, 3, 1, 1⟩).2.2
     (fun k => by cases k <;> norm_num [AveragedDataPoint.val]) PartyKey.liberal⟩

/-! ## Zoom Window Filter theorems -/

/-- C3 (counterexample). The claim states that under zoom level
`ALL` the cutoff is the earliest representable date, so no point is
ever excluded.  The code uses `new Date(0)` — the Unix epoch
(1970-01-01) — as the cutoff, so a representable point dated
1969-12-31 (one day before the epoch) *is* excluded: filtering the
singleton series produces the empty list instead of the unchanged
series. -/
theorem zoom_window_filter_C3_counterexample :
    zoomFilter ZoomLevel.all 2025 5 15
        [⟨daysFromCivil 1969 12 31, 40, 30, 20, 5, 3, 1, 1⟩] = []
    ∧ daysFromCivil 1969 12 31 = -1
    ∧ ([] : List AveragedDataPoint) ≠
        [⟨daysFromCivil 1969 12 31, 40, 30, 20, 5, 3, 1, 1⟩] := by
  refine ⟨?_, by decide, by simp⟩
  simp only [zoomFilter, zoomStartDate, List.filter]
  decide

/-- C3 (amended). The Zoom Window Filter keeps exactly the averaged
points whose date is ≥ the cutoff, where the cutoff is: `ALL` → the
Unix epoch 1970-01-01 (`new Date(0)`, not the earliest representable
date: points on or after the epoch are all kept, but a pre-epoch point
is excluded), `ONE_YEAR` → now minus 1 calendar year, `SIX_MONTHS` /
`THREE_MONTHS` / `ONE_MONTH` → now minus 6 / 3 / 1 calendar months,
with calendar-month arithmetic handling year rollover (3 months before
March 15, 2024 is December 15, 2023; 1 month before January 10, 2025
is December 10, 2024); for every zoom level a point dated exactly at
the cutoff is included and a point dated one day before the cutoff is
excluded. -/
theorem zoom_window_filter_C3 (lvl : ZoomLevel) (nowY nowM nowD : ℤ)
    (data : List AveragedDataPoint) (p : AveragedDataPoint) :
    (p ∈ zoomFilter lvl nowY nowM nowD data ↔
      p ∈ data ∧ zoomStartDate lvl nowY nowM nowD ≤ p.date)
    ∧ (p ∈ data → p.date = zoomStartDate lvl nowY nowM nowD →
        p ∈ zoomFilter lvl nowY nowM nowD data)
    ∧ (p.date = zoomStartDate lvl nowY nowM nowD - 1 →
        p ∉ zoomFilter lvl nowY nowM nowD data)
    ∧ (p ∈ data → 0 ≤ p.date → p ∈ zoomFilter ZoomLevel.all nowY nowM nowD data)
    ∧ zoomStartDate ZoomLevel.all nowY nowM nowD = daysFromCivil 1970 1 1
    ∧ zoomStartDate ZoomLevel.threeMonths 2024 2 15 = daysFromCivil 2023 12 15
    ∧ zoomStartDate ZoomLevel.oneMonth 2025 0 10 = daysFromCivil 2024 12 10 := by
  have hmem : p ∈ zoomFilter lvl nowY nowM nowD data ↔
      p ∈ data ∧ zoomStartDate lvl nowY nowM nowD ≤ p.date := by
    simp [zoomFilter, List.mem_filter]
  refine ⟨hmem, ?_, ?_, ?_, show (0 : ℤ) = daysFromCivil 1970 1 1 by decide,
    by decide, by decide⟩
  · intro hd he
    exact hmem.mpr ⟨hd, le_of_eq he.symm⟩
  · intro he hc
    have := (hmem.mp hc).2
    omega
  · intro hd h0
    simp [zoomFilter, List.mem_filter, zoomStartDate, hd, h0]

/-- Witness for C3: concrete boundary check under `THREE_MONTHS` with
now = March 15, 2024 — a point dated exactly December 15, 2023 is kept,
and a point dated December 14, 2023 is dropped. -/
theorem zoom_window_filter_C3_witness :
    (⟨daysFromCivil 2023 12 15, 40, 0, 0, 0, 0, 0, 0⟩ : AveragedDataPoint) ∈
      zoomFilter ZoomLevel.threeMonths 2024 2 15
        [⟨daysFromCivil 2023 12 15, 40, 0, 0, 0, 0, 0, 0⟩]
    ∧ (⟨daysFromCivil 2023 12 14, 40, 0, 0, 0, 0, 0, 0⟩ : AveragedDataPoint) ∉
      zoomFilter ZoomLevel.threeMonths 2024 2 15
        [⟨daysFromCivil 2023 12 14, 40, 0, 0, 0, 0, 0, 0⟩] :=
  ⟨(zoom_window_filter_C3 ZoomLevel.threeMonths 2024 2 15
      [⟨daysFromCivil 2023 12 15, 40, 0, 0, 0, 0, 0, 0⟩]
      ⟨daysFromCivil 2023 12 15, 40, 0, 0, 0, 0, 0, 0⟩).2.1
      (by simp) (by decide),
   (zoom_window_filter_C3 ZoomLevel.threeMonths 2024 2 15
      [⟨daysFromCivil 2023 12 14, 40, 0, 0, 0, 0, 0, 0⟩]
      ⟨daysFromCivil 2023 12 14, 40, 0, 0, 0, 0, 0, 0⟩).2.2.1
      (by decide)⟩

/-! ## Empty- and single-input behaviour of the pipeline stages -/

/-- A concrete single-row dataset. -/
def singlePoll : Poll := ⟨daysFromCivil 2025 6 1, "x", 500, 40, 30, 20, 5, 3, 1, 1⟩

/-- The averaged point the pipeline produces from `singlePoll`. -/
def singlePoint : AveragedDataPoint := ⟨daysFromCivil 2025 6 1, 40, 30, 20, 5, 3, 1, 1⟩

/-- C7. Every pipeline stage — smoothing, normalization (mapped over
the series), zoom filtering, the full averaging pipeline, and scale
construction — is a total function that maps the empty series to the
empty output (scale construction on empty data yields the floor `30`),
so no stage can raise an exception on empty input; and a single-row
dataset passes through the whole pipeline, zoom filtering and scale
construction, yielding a degenerate single-point series with a defined
ceiling. -/
theorem empty_and_single_input_C7 :
    (∀ (party : PartyKey) (α : ℚ), calculateEWMA [] party α = [])
    ∧ (∀ (lvl : ZoomLevel) (y m d : ℤ), zoomFilter lvl y m d [] = [])
    ∧ ([] : List AveragedDataPoint).map normalizeVoteShare = []
    ∧ (∀ α : ℚ, processAveraged [] α = [])
    ∧ finalYMax [] [] = 30
    ∧ processAveraged [singlePoll] (1/4) = [singlePoint]
    ∧ zoomFilter ZoomLevel.all 2025 5 15 [singlePoint] = [singlePoint]
    ∧ finalYMax [singlePoll] [singlePoint] = 45 := by
  refine ⟨fun party α => rfl, fun lvl y m d => rfl, rfl,
    fun α => by simp [processAveraged, sortPolls, List.insertionSort, uniqueDates],
    ?_, ?_, ?_, ?_⟩
  · have hc : (⌈(0 : ℚ) * (21/20) / 5⌉ : ℤ) = 0 := by norm_num
    norm_num [finalYMax, overallMax, maxRawVoteShare, maxAvgVoteShare, hc, max_def]
  · have t1 : sortPolls [singlePoll] = [singlePoll] := rfl
    have t3 : uniqueDates [singlePoll.date] = [singlePoll.date] := by simp [uniqueDates]
    have t4 : preNormPoint [singlePoll] (1/4) singlePoll.date = singlePoint := by
      simp [preNormPoint, assignLast, calculateEWMA, sortPolls, List.insertionSort,
        List.orderedInsert, ewmaFrom, Poll.val, singlePoll, singlePoint]
    have t5 : normalizeVoteShare singlePoint = singlePoint := by
      norm_num [normalizeVoteShare, sumSeven, singlePoint]
    simp only [processAveraged, t1, List.map_cons, List.map_nil, t3, t4, t5]
    rfl
  · simp only [zoomFilter, zoomStartDate, List.filter_cons, List.filter_nil]
    rw [if_pos (by decide)]
  · have hm : overallMax [singlePoll] [singlePoint] = 40 := by
      norm_num [overallMax, maxRawVoteShare, maxAvgVoteShare, Poll.maxSix,
        AveragedDataPoint.maxSix, singlePoll, singlePoint, max_def]
    have hc : (⌈(42 : ℚ) / 5⌉ : ℤ) = 9 := by rw [Int.ceil_eq_iff]; norm_num
    norm_num [finalYMax, hm, hc, max_def]

/-! ## The region-switch fetch race -/

/-- C8 (failing execution). The claim (and §5/§8 of the design)
require that when a fetch for region `A` is outstanding and a fetch for
region `B` starts and resolves first, the late-resolving `A` response
never overwrites the state displayed under `B`'s label.  The fetching
PollingChart variant's `fetchData` effect installs no cleanup and its
response handler stores the payload unconditionally, so on the
interleaving «change to A, change to B, B responds, A responds» the
final state shows region `B` with region `A`'s data — the stale
response won: the displayed data equals `A`'s payload and differs from
`B`'s. -/
theorem fetch_race_C8 :
    runFetch ⟨"initial", false, []⟩
      [FetchEvent.regionChange "A",
       FetchEvent.regionChange "B",
       FetchEvent.respond "B" [⟨0, 29, 0, 0, 0, 0, 0, 0⟩],
       FetchEvent.respond "A" [⟨0, 41, 0, 0, 0, 0, 0, 0⟩]] =
      ⟨"B", false, [⟨0, 41, 0, 0, 0, 0, 0, 0⟩]⟩
    ∧ ([⟨0, 41, 0, 0, 0, 0, 0, 0⟩] : List AveragedDataPoint) ≠
        [⟨0, 29, 0, 0, 0, 0, 0, 0⟩] := by
  constructor
  · rfl
  · simp only [ne_eq, List.cons.injEq, and_true, AveragedDataPoint.mk.injEq, not_and]
    intro _ h
    norm_num at h

/-! ## Scale/Axis Builder theorems -/

theorem le_foldl_max {α : Type} (f : α → ℚ) : ∀ (l : List α) (acc : ℚ),
    acc ≤ l.foldl (fun a b => max a (f b)) acc
  | [], acc => le_refl acc
  | x :: l, acc => le_trans (le_max_left acc (f x)) (le_foldl_max f l _)

theorem mem_le_foldl_max {α : Type} (f : α → ℚ) : ∀ (l : List α) (acc : ℚ) (p : α),
    p ∈ l → f p ≤ l.foldl (fun a b => max a (f b)) acc
  | x :: l, acc, p, hp => by
    rcases List.mem_cons.mp hp with h | h
    · subst h
      exact le_trans (le_max_right acc (f p)) (le_foldl_max f l _)
    · exact mem_le_foldl_max f l _ p h

theorem pollVal_le_maxSix (p : Poll) (k : PartyKey) (hk : k ≠ PartyKey.other) :
    p.val k ≤ p.maxSix := by
  cases k <;> simp [Poll.val, Poll.maxSix, le_max_iff, le_refl] at hk ⊢

theorem avgVal_le_maxSix (p : AveragedDataPoint) (k : PartyKey)
    (hk : k ≠ PartyKey.other) : p.val k ≤ p.maxSix := by
  cases k <;>
    simp [AveragedDataPoint.val, AveragedDataPoint.maxSix, le_max_iff, le_refl] at hk ⊢

/-- Every value that is at most the overall maximum is strictly below
the computed ceiling. -/
theorem lt_finalYMax_of_le_overallMax (relevant : List Poll)
    (filteredAvg : List AveragedDataPoint) (v : ℚ)
    (hv : v ≤ overallMax relevant filteredAvg) :
    v < (finalYMax relevant filteredAvg : ℚ) := by
  set M := overallMax relevant filteredAvg with hM
  have h30 : (30 : ℤ) ≤ finalYMax relevant filteredAvg := le_max_left _ _
  rcases le_or_lt M 0 with hM0 | hM0
  · have : (30 : ℚ) ≤ (finalYMax relevant filteredAvg : ℚ) := by exact_mod_cast h30
    linarith
  · have h1 : M * (21/20) / 5 ≤ (⌈M * (21/20 : ℚ) / 5⌉ : ℚ) := Int.le_ceil _
    have h2 : (⌈M * (21/20 : ℚ) / 5⌉ * 5 : ℤ) ≤ finalYMax relevant filteredAvg :=
      le_max_right _ _
    have h2' : ((⌈M * (21/20 : ℚ) / 5⌉ * 5 : ℤ) : ℚ) ≤ (finalYMax relevant filteredAvg : ℚ) := by
      exact_mod_cast h2
    push_cast at h2'
    nlinarith

/-- C5 (counterexample). The claim's maximum `M` ranges over all
vote-share values, but the code's `overallMax` takes the maximum of the
six charted parties only, skipping `other`.  On a window holding one
averaged point whose `other` share is `80` (all charted parties `0`),
the code computes the floor ceiling `30`, while the claim's formula
with `M = 80` gives `85`. -/
theorem scale_axis_builder_C5_counterexample :
    finalYMax (relevantRawData 0 0 []) [⟨0, 0, 0, 0, 0, 0, 0, 80⟩] = 30
    ∧ (⟨0, 0, 0, 0, 0, 0, 0, 80⟩ : AveragedDataPoint).other = 80
    ∧ max 30 (⌈(80 : ℚ) * (21/20) / 5⌉ * 5) = 85
    ∧ (30 : ℤ) ≠ 85 := by
  refine ⟨?_, rfl, ?_, by decide⟩
  · have hc : (⌈(0 : ℚ) * (21/20) / 5⌉ : ℤ) = 0 := by norm_num
    norm_num [finalYMax, overallMax, maxRawVoteShare, maxAvgVoteShare, relevantRawData,
      AveragedDataPoint.maxSix, hc, max_def]
  · have hc : (⌈(84 : ℚ) / 5⌉ : ℤ) = 17 := by rw [Int.ceil_eq_iff]; norm_num
    norm_num [hc, max_def]

/-- C5 (amended). For every date window, the vertical ceiling
equals `max(30, ceil((M * 1.05) / 5) * 5)` where `M` is the maximum
vote-share value over the **six charted parties** (`other` excluded,
the only change the counterexample forces) across both the raw polls
whose dates intersect the window and the filtered smoothed points;
consequently the ceiling is a multiple of 5, at least 30, and strictly
greater than every plotted value. -/
theorem scale_axis_builder_C5 (lo hi : ℤ) (rawData : List Poll)
    (filteredAvg : List AveragedDataPoint) :
    finalYMax (relevantRawData lo hi rawData) filteredAvg =
      max 30 (⌈overallMax (relevantRawData lo hi rawData) filteredAvg * (21/20 : ℚ) / 5⌉ * 5)
    ∧ (5 : ℤ) ∣ finalYMax (relevantRawData lo hi rawData) filteredAvg
    ∧ 30 ≤ finalYMax (relevantRawData lo hi rawData) filteredAvg
    ∧ (∀ p ∈ relevantRawData lo hi rawData, ∀ k : PartyKey, k ≠ PartyKey.other →
        p.val k < (finalYMax (relevantRawData lo hi rawData) filteredAvg : ℚ))
    ∧ (∀ q ∈ filteredAvg, ∀ k : PartyKey, k ≠ PartyKey.other →
        q.val k < (finalYMax (relevantRawData lo hi rawData) filteredAvg : ℚ)) := by
  refine ⟨rfl, ?_, le_max_left _ _, ?_, ?_⟩
  · rcases max_choice (30 : ℤ)
      (⌈overallMax (relevantRawData lo hi rawData) filteredAvg * (21/20 : ℚ) / 5⌉ * 5)
      with h | h <;> rw [finalYMax, h]
    · exact ⟨6, rfl⟩
    · exact dvd_mul_left 5 _
  · intro p hp k hk
    refine lt_finalYMax_of_le_overallMax _ _ _ ?_
    exact le_trans (pollVal_le_maxSix p k hk)
      (le_trans (mem_le_foldl_max (fun q => q.maxSix) _ 0 p hp)
        (le_max_left _ _))
  · intro q hq k hk
    refine lt_finalYMax_of_le_overallMax _ _ _ ?_
    exact le_trans (avgVal_le_maxSix q k hk)
      (le_trans (mem_le_foldl_max (fun r => r.maxSix) _ 0 q hq)
        (le_max_right _ _))

/-- Witness for C5: a concrete in-window poll's liberal share `40` is
strictly below the computed ceiling. -/
theorem scale_axis_builder_C5_witness :
    (⟨3, "w", 100, 40, 0, 0, 0, 0, 0, 0⟩ : Poll).val PartyKey.liberal <
      (finalYMax (relevantRawData 0 10 [⟨3, "w", 100, 40, 0, 0, 0, 0, 0, 0⟩]) [] : ℚ) :=
  (scale_axis_builder_C5 0 10 [⟨3, "w", 100, 40, 0, 0, 0, 0, 0, 0⟩] []).2.2.2.1
    ⟨3, "w", 100, 40, 0, 0, 0, 0, 0, 0⟩
    (by norm_num [relevantRawData, List.mem_filter])
    PartyKey.liberal (by decide)

/-! ## Nearest-Point Locator theorems -/

theorem sorted_getD_mono (keys : List ℚ) (hs : keys.Sorted (· ≤ ·)) {i j : ℕ}
    (hij : i ≤ j) (hj : j < keys.length) : keys.getD i 0 ≤ keys.getD j 0 := by
  have hi : i < keys.length := lt_of_le_of_lt hij hj
  rw [List.getD_eq_get _ _ hi, List.getD_eq_get _ _ hj]
  exact hs.rel_get_of_le hij

/-- The interval specification of d3's leftmost binary search on a
sorted key list: the result `i` lies in `[lo, hi]`, every key strictly
before `i` (from `lo` on) is `< x`, and every key from `i` up to `hi`
is `≥ x`. -/
theorem bisectLeft_spec (keys : List ℚ) (x : ℚ) (hs : keys.Sorted (· ≤ ·)) :
    ∀ (n lo hi : ℕ), hi - lo ≤ n → lo ≤ hi → hi ≤ keys.length →
      lo ≤ bisectLeft keys x lo hi ∧ bisectLeft keys x lo hi ≤ hi ∧
      (∀ j, lo ≤ j → j < bisectLeft keys x lo hi → keys.getD j 0 < x) ∧
      (∀ j, bisectLeft keys x lo hi ≤ j → j < hi → x ≤ keys.getD j 0) := by
  intro n
  induction n with
  | zero =>
    intro lo hi hn hlh hhi
    have : hi = lo := by omega
    subst this
    rw [bisectLeft, dif_neg (by omega)]
    exact ⟨le_refl _, le_refl _, fun j h1 h2 => absurd h2 (by omega),
      fun j h1 h2 => absurd h2 (by omega)⟩
  | succ n ih =>
    intro lo hi hn hlh hhi
    rw [bisectLeft]
    by_cases hcase : lo < hi
    · rw [dif_pos hcase]
      have hmid : lo ≤ (lo + hi) / 2 ∧ (lo + hi) / 2 < hi := by omega
      by_cases hcmp : keys.getD ((lo + hi) / 2) 0 < x
      · rw [if_pos hcmp]
        obtain ⟨h1, h2, h3, h4⟩ :=
          ih ((lo + hi) / 2 + 1) hi (by omega) (by omega) hhi
        refine ⟨by omega, h2, ?_, h4⟩
        intro j hj1 hj2
        by_cases hjm : j ≤ (lo + hi) / 2
        · exact lt_of_le_of_lt
            (sorted_getD_mono keys hs hjm (by omega)) hcmp
        · exact h3 j (by omega) hj2
      · rw [if_neg hcmp]
        obtain ⟨h1, h2, h3, h4⟩ := ih lo ((lo + hi) / 2) (by omega) (by omega) (by omega)
        refine ⟨h1, by omega, h3, ?_⟩
        intro j hj1 hj2
        by_cases hjm : j < (lo + hi) / 2
        · exact h4 j hj1 hjm
        · exact le_trans (not_lt.mp hcmp)
            (sorted_getD_mono keys hs (by omega) (by omega))
    · rw [dif_neg hcase]
      exact ⟨le_refl _, hlh, fun j h1 h2 => absurd h2 (by omega),
        fun j h1 h2 => absurd (lt_of_le_of_lt h1 h2) hcase⟩

theorem keys_getD (data : List AveragedDataPoint) (j : ℕ) (d : AveragedDataPoint)
    (h : data.get? j = some d) :
    (data.map (fun p => (p.date : ℚ))).getD j 0 = (d.date : ℚ) := by
  rw [List.getD_eq_getD_get?, List.get?_map, h]
  rfl

theorem keys_sorted (data : List AveragedDataPoint) (hs : data.Sorted avgDateLe) :
    (data.map (fun p => (p.date : ℚ))).Sorted (· ≤ ·) :=
  hs.map _ (fun _ _ hab => Int.cast_le.mpr hab)

/-- Bracketing case of the `mousemove` handler: when `x` falls strictly
after `data[k]` and at or before `data[k+1]`, the bisection lands at
`k + 1` and the handler picks between exactly those two points with the
source's comparison. -/
theorem mousemoveSelect_bracket (data : List AveragedDataPoint) (x : ℚ)
    (hs : data.Sorted avgDateLe) (k : ℕ) (d0 d1 : AveragedDataPoint)
    (h0 : data.get? k = some d0) (h1 : data.get? (k + 1) = some d1)
    (hx0 : (d0.date : ℚ) < x) (hx1 : x ≤ (d1.date : ℚ)) :
    mousemoveSelect data x =
      some (if x - (d0.date : ℚ) > (d1.date : ℚ) - x then d1 else d0) := by
  have hk1 : k + 1 < data.length := (List.get?_eq_some.mp h1).1
  have hkeysl : (data.map (fun p => (p.date : ℚ))).length = data.length :=
    List.length_map _ _
  obtain ⟨hb1, hb2, hb3, hb4⟩ :=
    bisectLeft_spec (data.map (fun p => (p.date : ℚ))) x (keys_sorted data hs)
      (data.length - 1) 1 (data.map (fun p => (p.date : ℚ))).length
      (by omega) (by omega) (le_refl _)
  have hieq : bisectLeft (data.map (fun p => (p.date : ℚ))) x 1
      (data.map (fun p => (p.date : ℚ))).length = k + 1 := by
    by_contra hne
    rcases lt_or_gt_of_ne hne with hlt | hgt
    · have := hb4 k (by omega) (by omega)
      rw [keys_getD data k d0 h0] at this
      linarith
    · have := hb3 (k + 1) (by omega) (by omega)
      rw [keys_getD data (k + 1) d1 h1] at this
      linarith
  simp only [mousemoveSelect, hieq, Nat.add_sub_cancel, h0, h1]

/-- Before-the-first-point case: with at least two points and `x` at or
before the first date, the handler returns the first point. -/
theorem mousemoveSelect_first (data : List AveragedDataPoint) (x : ℚ)
    (hs : data.Sorted avgDateLe) (d0 d1 : AveragedDataPoint)
    (h0 : data.get? 0 = some d0) (h1 : data.get? 1 = some d1)
    (hx : x ≤ (d0.date : ℚ)) :
    mousemoveSelect data x = some d0 := by
  have hk1 : 1 < data.length := (List.get?_eq_some.mp h1).1
  have h01 : (d0.date : ℚ) ≤ (d1.date : ℚ) := by
    have := hs.rel_get_of_lt (a := ⟨0, by omega⟩) (b := ⟨1, by omega⟩) (by norm_num)
    have e0 : data.get ⟨0, by omega⟩ = d0 := by
      have := List.get?_eq_get (l := data) (n := 0) (by omega)
      rw [h0] at this
      exact (Option.some.injEq _ _).mp this.symm
    have e1 : data.get ⟨1, by omega⟩ = d1 := by
      have := List.get?_eq_get (l := data) (n := 1) (by omega)
      rw [h1] at this
      exact (Option.some.injEq _ _).mp this.symm
    rw [e0, e1] at this
    exact_mod_cast this
  have hkl : (data.map (fun p => (p.date : ℚ))).length = data.length :=
    List.length_map _ _
  obtain ⟨hb1, hb2, hb3, hb4⟩ :=
    bisectLeft_spec (data.map (fun p => (p.date : ℚ))) x (keys_sorted data hs)
      (data.length - 1) 1 (data.map (fun p => (p.date : ℚ))).length
      (by omega) (by omega) (le_refl _)
  have hieq : bisectLeft (data.map (fun p => (p.date : ℚ))) x 1
      (data.map (fun p => (p.date : ℚ))).length = 1 := by
    by_contra hne
    have hgt : 1 < bisectLeft (data.map (fun p => (p.date : ℚ))) x 1
        (data.map (fun p => (p.date : ℚ))).length := by omega
    have := hb3 1 (le_refl _) hgt
    rw [keys_getD data 1 d1 h1] at this
    linarith
  have hnot : ¬(x - (d0.date : ℚ) > (d1.date : ℚ) - x) := by linarith
  simp only [mousemoveSelect, hieq, Nat.sub_self, h0, h1, if_neg hnot]

/-- After-the-last-point case: when `x` falls strictly after the last
date, the bisection lands at `data.length`, `d1` is missing, and the
handler returns early with no selection. -/
theorem mousemoveSelect_afterLast (data : List AveragedDataPoint) (x : ℚ)
    (hs : data.Sorted avgDateLe) (dn : AveragedDataPoint)
    (hn : data.get? (data.length - 1) = some dn) (hx : (dn.date : ℚ) < x) :
    mousemoveSelect data x = none := by
  have hlen : data.length - 1 < data.length := (List.get?_eq_some.mp hn).1
  have hkl : (data.map (fun p => (p.date : ℚ))).length = data.length :=
    List.length_map _ _
  obtain ⟨hb1, hb2, hb3, hb4⟩ :=
    bisectLeft_spec (data.map (fun p => (p.date : ℚ))) x (keys_sorted data hs)
      data.length 1 (data.map (fun p => (p.date : ℚ))).length
      (by omega) (by omega) (le_refl _)
  have hieq : bisectLeft (data.map (fun p => (p.date : ℚ))) x 1
      (data.map (fun p => (p.date : ℚ))).length = data.length := by
    simp only [List.length_map] at hb2 ⊢
    by_contra hne
    have hlt : bisectLeft (data.map (fun p => (p.date : ℚ))) x 1
        (data.map (fun p => (p.date : ℚ))).length < data.length := by
      simp only [List.length_map] at *
      omega
    have hge := hb4 (bisectLeft (data.map (fun p => (p.date : ℚ))) x 1
        (data.map (fun p => (p.date : ℚ))).length) (le_refl _)
      (by simp only [List.length_map]; omega)
    have hmono := sorted_getD_mono (data.map (fun p => (p.date : ℚ)))
      (keys_sorted data hs)
      (i := bisectLeft (data.map (fun p => (p.date : ℚ))) x 1
        (data.map (fun p => (p.date : ℚ))).length)
      (j := data.length - 1) (by omega) (by simp only [List.length_map]; omega)
    rw [keys_getD data (data.length - 1) dn hn] at hmono
    linarith
  have hnone : data.get? data.length = none := by
    rw [List.get?_eq_none]
  simp only [mousemoveSelect, hieq, hnone]
  rcases data.get? (data.length - 1) with _ | d0 <;> rfl

/-- Degenerate case: with fewer than two points, one of the two
bracketing lookups is always missing and the handler returns early
with no selection. -/
theorem mousemoveSelect_short (data : List AveragedDataPoint) (x : ℚ)
    (hlen : data.length ≤ 1) : mousemoveSelect data x = none := by
  rcases data with _ | ⟨d, _ | ⟨e, l⟩⟩
  · rfl
  · have : bisectLeft ([d].map (fun p => (p.date : ℚ))) x 1 1 = 1 := by
      rw [bisectLeft, dif_neg (by omega)]
    simp only [mousemoveSelect, List.map_cons, List.map_nil, List.length_cons,
      List.length_nil] at *
    rw [this]
    rfl
  · simp at hlen

/-- A bare averaged point used for locator examples. -/
def cexPoint (d : ℤ) : AveragedDataPoint := ⟨d, 0, 0, 0, 0, 0, 0, 0⟩

/-- C4 (counterexample). The claim says an exact tie goes to the
*later* point and that a candidate after the last point clamps to the
last point.  The handler's comparison is strict (`>`): on the series at
days 1, 5, 10 a query at day 7.5 — exactly equidistant between 5 and
10 — selects the *earlier* point (day 5, not 10), and a query at day
12 (after the last point) selects nothing at all instead of clamping
to day 10. -/
theorem nearest_point_locator_C4_counterexample :
    mousemoveSelect [cexPoint 1, cexPoint 5, cexPoint 10] (15/2) = some (cexPoint 5)
    ∧ cexPoint 5 ≠ cexPoint 10
    ∧ |(15/2 : ℚ) - ((cexPoint 5).date : ℚ)| = |(15/2 : ℚ) - ((cexPoint 10).date : ℚ)|
    ∧ mousemoveSelect [cexPoint 1, cexPoint 5, cexPoint 10] 12 = none := by
  have hs : ([cexPoint 1, cexPoint 5, cexPoint 10] : List AveragedDataPoint).Sorted
      avgDateLe := by
    simp [List.sorted_cons, avgDateLe, cexPoint]
  refine ⟨?_, by simp [cexPoint], by norm_num [cexPoint], ?_⟩
  · have h := mousemoveSelect_bracket [cexPoint 1, cexPoint 5, cexPoint 10] (15/2) hs 1
      (cexPoint 5) (cexPoint 10) rfl rfl (by norm_num [cexPoint]) (by norm_num [cexPoint])
    rw [h, if_neg (by norm_num [cexPoint])]
  · exact mousemoveSelect_afterLast [cexPoint 1, cexPoint 5, cexPoint 10] 12 hs
      (cexPoint 10) rfl (by norm_num [cexPoint])

/-- C4 (amended). For every series sorted ascending by date and
every pointer-candidate time `x`: with fewer than two points the
handler selects nothing; when `x` is at or before the first point it
returns the first point; when `x` is strictly after the last point the
handler returns early with *no* selection (it does not clamp to the
last point); and when `x` falls between two adjacent points the handler
returns whichever is closer in absolute time difference, an exact tie
going to the *earlier* point. -/
theorem nearest_point_locator_C4 (data : List AveragedDataPoint) (x : ℚ)
    (hs : data.Sorted avgDateLe) :
    (data.length ≤ 1 → mousemoveSelect data x = none)
    ∧ (∀ d0 d1, data.get? 0 = some d0 → data.get? 1 = some d1 →
        x ≤ (d0.date : ℚ) → mousemoveSelect data x = some d0)
    ∧ (∀ dn, data.get? (data.length - 1) = some dn → (dn.date : ℚ) < x →
        mousemoveSelect data x = none)
    ∧ (∀ (k : ℕ) (d0 d1 : AveragedDataPoint),
        data.get? k = some d0 → data.get? (k + 1) = some d1 →
        (d0.date : ℚ) < x → x ≤ (d1.date : ℚ) →
        (|x - (d1.date : ℚ)| < |x - (d0.date : ℚ)| →
          mousemoveSelect data x = some d1)
        ∧ (|x - (d0.date : ℚ)| ≤ |x - (d1.date : ℚ)| →
          mousemoveSelect data x = some d0)) := by
  refine ⟨mousemoveSelect_short data x,
    fun d0 d1 h0 h1 hx => mousemoveSelect_first data x hs d0 d1 h0 h1 hx,
    fun dn hn hx => mousemoveSelect_afterLast data x hs dn hn hx,
    fun k d0 d1 h0 h1 hx0 hx1 => ?_⟩
  have hsel := mousemoveSelect_bracket data x hs k d0 d1 h0 h1 hx0 hx1
  have habs0 : |x - (d0.date : ℚ)| = x - (d0.date : ℚ) := abs_of_pos (by linarith)
  have habs1 : |x - (d1.date : ℚ)| = (d1.date : ℚ) - x := by
    rw [abs_sub_comm]
    exact abs_of_nonneg (by linarith)
  constructor
  · intro hcl
    rw [habs0, habs1] at hcl
    rw [hsel, if_pos (by linarith)]
  · intro hcl
    rw [habs0, habs1] at hcl
    rw [hsel, if_neg (by linarith)]

/-- Witness for C4: on the series at days 1, 5, 10, a query at day 7 is
closer to day 5 (distance 2) than to day 10 (distance 3) and the
handler returns the day-5 point; hypotheses discharged concretely. -/
theorem nearest_point_locator_C4_witness :
    mousemoveSelect [cexPoint 1, cexPoint 5, cexPoint 10] 7 = some (cexPoint 5) :=
  ((nearest_point_locator_C4 [cexPoint 1, cexPoint 5, cexPoint 10] 7
      (by simp [List.sorted_cons, avgDateLe, cexPoint])).2.2.2
    1 (cexPoint 5) (cexPoint 10) rfl rfl
      (by norm_num [cexPoint]) (by norm_num [cexPoint])).2
    (by norm_num [cexPoint])

/-! ## Ordering invariant of the averaged series -/

theorem uniqueDates_subset : ∀ (l : List ℤ) (x : ℤ), x ∈ uniqueDates l → x ∈ l
  | [], x, h => by simp [uniqueDates] at h
  | d :: ds, x, h => by
    rw [uniqueDates] at h
    rcases List.mem_cons.mp h with h | h
    · exact h ▸ List.mem_cons_self _ _
    · exact List.mem_cons_of_mem _
        (List.mem_of_mem_filter (uniqueDates_subset _ x h))
termination_by l => l.length
decreasing_by
  have := List.length_filter_le (fun e => decide (e ≠ d)) ds
  simp only [List.length_cons]
  omega

theorem uniqueDates_sorted_strict : ∀ (l : List ℤ), l.Sorted (· ≤ ·) →
    (uniqueDates l).Sorted (· < ·)
  | [], _ => by simp [uniqueDates]
  | d :: ds, hs => by
    rw [uniqueDates]
    obtain ⟨hall, hs'⟩ := List.sorted_cons.mp hs
    have hfs : (ds.filter (fun e => e ≠ d)).Sorted (· ≤ ·) :=
      hs'.sublist (List.filter_sublist ds)
    refine List.Pairwise.cons ?_ (uniqueDates_sorted_strict _ hfs)
    intro y hy
    have hyf := uniqueDates_subset _ y hy
    obtain ⟨hyds, hyne⟩ := List.mem_filter.mp hyf
    exact lt_of_le_of_ne (hall y hyds) (fun he => by simp [← he] at hyne)
termination_by l => l.length
decreasing_by
  have := List.length_filter_le (fun e => decide (e ≠ d)) ds
  simp only [List.length_cons]
  omega

theorem preNormPoint_date (sorted : List Poll) (α : ℚ) (d : ℤ) :
    (preNormPoint sorted α d).date = d := rfl

/-- C9. For every input set of raw polls, the averaged series
produced by the data-processing pipeline is strictly ordered ascending
by date (hence contains no two points with the same date), and zoom
filtering at every level preserves this invariant. -/
theorem averaged_series_strictly_sorted_C9 (polls : List Poll) (α : ℚ) :
    (processAveraged polls α).Pairwise (fun a b => a.date < b.date)
    ∧ (∀ (lvl : ZoomLevel) (y m d : ℤ),
        (zoomFilter lvl y m d (processAveraged polls α)).Pairwise
          (fun a b => a.date < b.date)) := by
  have hmain : (processAveraged polls α).Pairwise (fun a b => a.date < b.date) := by
    unfold processAveraged
    have hdates : ((sortPolls polls).map (fun p => p.date)).Sorted (· ≤ ·) :=
      (List.sorted_insertionSort dateLe polls).map _ (fun _ _ h => h)
    have hu : (uniqueDates ((sortPolls polls).map (fun p => p.date))).Sorted (· < ·) :=
      uniqueDates_sorted_strict _ hdates
    have hpre : ((uniqueDates ((sortPolls polls).map (fun p => p.date))).map
        (preNormPoint (sortPolls polls) α)).Pairwise (fun a b => a.date < b.date) :=
      hu.map _ (fun a b hab => by
        rw [preNormPoint_date, preNormPoint_date]; exact hab)
    have hnormed : (((uniqueDates ((sortPolls polls).map (fun p => p.date))).map
        (preNormPoint (sortPolls polls) α)).map normalizeVoteShare).Pairwise
        (fun a b => a.date < b.date) :=
      hpre.map _ (fun a b hab => by
        rw [normalizeVoteShare_date, normalizeVoteShare_date]; exact hab)
    have hsorted : (((uniqueDates ((sortPolls polls).map (fun p => p.date))).map
        (preNormPoint (sortPolls polls) α)).map normalizeVoteShare).Sorted avgDateLe :=
      hnormed.imp (fun h => le_of_lt h)
    rw [hsorted.insertionSort_eq]
    exact hnormed
  exact ⟨hmain, fun lvl y m d => hmain.sublist (List.filter_sublist _)⟩

/-! ## Same-date policy of the per-date assignment loop -/

theorem foldl_assign_noMatch (d : ℤ) : ∀ (l : List (ℤ × ℚ)) (acc : ℚ),
    (∀ pr ∈ l, pr.1 ≠ d) →
    l.foldl (fun acc pr => if pr.1 = d then pr.2 else acc) acc = acc
  | [], _, _ => rfl
  | pr :: l, acc, h => by
    simp only [List.foldl_cons, if_neg (h pr (List.mem_cons_self _ _))]
    exact foldl_assign_noMatch d l acc (fun q hq => h q (List.mem_cons_of_mem _ hq))

/-- The per-date assignment fold keeps the value written at the last
matching index: if `pairs[i] = (d, v)` and no later pair carries date
`d`, the fold returns `v` (every earlier same-date write is
overwritten). -/
theorem assignLast_eq_of_last (pairs : List (ℤ × ℚ)) (d : ℤ) (i : ℕ) (v : ℚ)
    (hi : pairs.get? i = some (d, v))
    (hafter : ∀ (j : ℕ) (pr : ℤ × ℚ), i < j → pairs.get? j = some pr → pr.1 ≠ d) :
    assignLast pairs d = v := by
  have hsplit : pairs = pairs.take (i + 1) ++ pairs.drop (i + 1) :=
    (List.take_append_drop (i + 1) pairs).symm
  have htake : pairs.take (i + 1) = pairs.take i ++ [(d, v)] := by
    have hi' : pairs[i]? = some (d, v) := by
      rw [← List.get?_eq_getElem?]
      exact hi
    rw [List.take_succ]
    simp [hi']
  unfold assignLast
  rw [hsplit, List.foldl_append, htake, List.foldl_append]
  simp only [List.foldl_cons, List.foldl_nil, if_pos rfl]
  refine foldl_assign_noMatch d _ v ?_
  intro pr hpr
  obtain ⟨m, hm⟩ := List.mem_iff_get?.mp hpr
  rw [List.get?_drop] at hm
  exact hafter (i + 1 + m) pr (by omega) hm

theorem preNormPoint_val (sorted : List Poll) (α : ℚ) (d : ℤ) (party : PartyKey) :
    (preNormPoint sorted α d).val party =
      assignLast ((sorted.map (fun p => p.date)).zip
        (calculateEWMA sorted party α)) d := by
  cases party <;> rfl

/-- C10. Same-date polls are fed to the EWMA as successive
independent observations — the smoothing produces one value per poll,
so each same-date poll advances the state once — and the single
pre-normalization averaged point emitted for a date holds, per party,
the smoothed value computed at the *last* poll with that date in the
sorted order (earlier same-date values are overwritten, not averaged). -/
theorem same_date_policy_C10 (polls : List Poll) (party : PartyKey) (α : ℚ)
    (i : ℕ) (p : Poll)
    (hp : (sortPolls polls).get? i = some p)
    (hlast : ∀ (j : ℕ) (q : Poll), i < j → (sortPolls polls).get? j = some q →
      q.date ≠ p.date) :
    (calculateEWMA polls party α).length = polls.length
    ∧ (preNormPoint (sortPolls polls) α p.date).val party =
        (calculateEWMA (sortPolls polls) party α).getD i 0 := by
  refine ⟨length_calculateEWMA polls party α, ?_⟩
  have hilen : i < (sortPolls polls).length := (List.get?_eq_some.mp hp).1
  have helen : (calculateEWMA (sortPolls polls) party α).length =
      (sortPolls polls).length := by
    rw [length_calculateEWMA, sortPolls, List.length_insertionSort]
  have hie : i < (calculateEWMA (sortPolls polls) party α).length := by omega
  obtain ⟨w, hw⟩ : ∃ w, (calculateEWMA (sortPolls polls) party α).get? i = some w :=
    ⟨_, List.get?_eq_get hie⟩
  have hgetD : (calculateEWMA (sortPolls polls) party α).getD i 0 = w := by
    rw [List.getD_eq_getD_get?, hw]
    rfl
  rw [preNormPoint_val, hgetD]
  refine assignLast_eq_of_last _ p.date i w ?_ ?_
  · exact (List.get?_zip_eq_some _ _ _ _).mpr ⟨by rw [List.get?_map, hp]; rfl, hw⟩
  · intro j pr hij hj
    obtain ⟨hj1, _⟩ := (List.get?_zip_eq_some _ _ _ _).mp hj
    rw [List.get?_map] at hj1
    rcases hq : (sortPolls polls).get? j with _ | q
    · rw [hq] at hj1
      exact absurd hj1 (by simp)
    · rw [hq] at hj1
      have : q.date = pr.1 := by
        simpa using hj1
      rw [← this]
      exact hlast j q hij hq

/-- Witness for C10: two polls on the same date `5` with liberal shares
`40` then `30` — the emitted pre-normalization liberal value equals the
EWMA value at the second (last) same-date poll. -/
theorem same_date_policy_C10_witness :
    (preNormPoint (sortPolls
        [⟨5, "a", 0, 40, 0, 0, 0, 0, 0, 0⟩, ⟨5, "b", 0, 30, 0, 0, 0, 0, 0, 0⟩]) (1/4)
      (⟨5, "b", 0, 30, 0, 0, 0, 0, 0, 0⟩ : Poll).date).val PartyKey.liberal =
    (calculateEWMA (sortPolls
        [⟨5, "a", 0, 40, 0, 0, 0, 0, 0, 0⟩, ⟨5, "b", 0, 30, 0, 0, 0, 0, 0, 0⟩])
      PartyKey.liberal (1/4)).getD 1 0 :=
  (same_date_policy_C10
    [⟨5, "a", 0, 40, 0, 0, 0, 0, 0, 0⟩, ⟨5, "b", 0, 30, 0, 0, 0, 0, 0, 0⟩]
    PartyKey.liberal (1/4) 1 ⟨5, "b", 0, 30, 0, 0, 0, 0, 0, 0⟩
    rfl
    (fun j q hj hq => by
      have hlen : (sortPolls
          [⟨5, "a", 0, 40, 0, 0, 0, 0, 0, 0⟩,
           ⟨5, "b", 0, 30, 0, 0, 0, 0, 0, 0⟩]).length ≤ j := by
        simp only [sortPolls, List.length_insertionSort, List.length_cons,
          List.length_nil]
        omega
      rw [List.get?_eq_none.mpr hlen] at hq
      exact absurd hq (by simp))).2

end Katelect
